import Mathlib

/-!
Verification of the data pipeline of `nlse_parameter_nn`.

The Python source is shallowly embedded: numpy arrays become `List`s
(4D datasets are lists of abstract samples, label arrays are lists),
floats become exact rationals `ℚ` (reals `ℝ` where the code uses
transcendental functions), and fallible numpy operations (fancy
indexing, assertions, broadcasting assignment) return `Option`.
-/

namespace NlseParameterNN

/-- Numpy fancy indexing `xs[idx]` for a 1D index array: returns `none`
when some index is out of bounds (numpy raises `IndexError`). -/
def gather {α : Type} (xs : List α) : List ℕ → Option (List α)
  | [] => some []
  | i :: is =>
    match xs[i]?, gather xs is with
    | some a, some rest => some (a :: rest)
    | _, _ => none

/-- `np.repeat(l, k, axis=0)`: each element repeated `k` times, contiguously. -/
def np_repeat {α : Type} (l : List α) (k : ℕ) : List α :=
  l.flatMap (fun x => List.replicate k x)

/-- Embedding of `engine/augment.py::data_augmentation`.  The call
`np.random.shuffle(np.arange(len(n2_labels)))` is modelled by the parameter
`indices`, an arbitrary permutation of `range (len n2_labels)` (theorems
hypothesise the permutation property).  The function then fancy-indexes the
three label arrays and the dataset by `indices` and repeats everything 16
times; fancy indexing out of bounds yields `none`. -/
def data_augmentation {S L : Type} (indices : List ℕ) (E : List S)
    (labels : ℕ × List L × ℕ × List L × ℕ × List L) :
    Option (List S × (ℕ × List L × ℕ × List L × ℕ × List L)) :=
  let (number_of_n2, n2_labels, number_of_isat, isat_labels, number_of_alpha, alpha_labels) :=
    labels
  let augmentation := 16
  match gather n2_labels indices, gather isat_labels indices,
        gather alpha_labels indices, gather E indices with
  | some n2_s, some isat_s, some alpha_s, some E_s =>
    some (np_repeat E_s augmentation,
      (number_of_n2, np_repeat n2_s augmentation,
       number_of_isat, np_repeat isat_s augmentation,
       number_of_alpha, np_repeat alpha_s augmentation))
  | _, _, _, _ => none

/-- Python `int()` on an exact rational: truncation toward zero. -/
def pyInt (q : ℚ) : ℤ :=
  if q < 0 then ⌈q⌉ else ⌊q⌋

/-- Embedding of `engine/utils.py::data_split`.  The assertion
`assert train_ratio + validation_ratio + test_ratio == 1` is modelled by
returning `none` when the sum differs from 1; ratios are exact rationals.
`r1, r2, r3` are the source's `train_ratio, validation_ratio, test_ratio`.
Slice `l[:t]` is `l.take t`, `l[t:v]` is `(l.take v).drop t`, `l[v:]` is
`l.drop v` (the split indices are nonnegative for the ratio ranges
considered, so Python's negative-index slicing is never reached). -/
def data_split {S L : Type} (E : List S) (n2_labels isat_labels alpha_labels : List L)
    (r1 r2 r3 : ℚ) :
    Option ((List S × List L × List L × List L) ×
            (List S × List L × List L × List L) ×
            (List S × List L × List L × List L)) :=
  if r1 + r2 + r3 = 1 then
    let N := E.length
    let train_index := (pyInt ((N : ℚ) * r1)).toNat
    let validation_index := (pyInt ((N : ℚ) * (r1 + r2))).toNat
    some ((E.take train_index, n2_labels.take train_index,
           isat_labels.take train_index, alpha_labels.take train_index),
          ((E.take validation_index).drop train_index,
           (n2_labels.take validation_index).drop train_index,
           (isat_labels.take validation_index).drop train_index,
           (alpha_labels.take validation_index).drop train_index),
          (E.drop validation_index, n2_labels.drop validation_index,
           isat_labels.drop validation_index, alpha_labels.drop validation_index))
  else none

/-- Binary minimum on ℚ, written with an explicit `if` so that it evaluates
in the kernel. -/
def rmin (a b : ℚ) : ℚ := if a ≤ b then a else b

/-- Binary maximum on ℚ, written with an explicit `if` so that it evaluates
in the kernel. -/
def rmax (a b : ℚ) : ℚ := if a ≤ b then b else a

/-- `np.min` over a (nonempty) flattened slice; 0 on the empty list. -/
def minL : List ℚ → ℚ
  | [] => 0
  | a :: l => l.foldl rmin a

/-- `np.max` over a (nonempty) flattened slice; 0 on the empty list. -/
def maxL : List ℚ → ℚ
  | [] => 0
  | a :: l => l.foldl rmax a

/-- One leading-axis slice of `engine/utils.py::normalize_data`: the slice's
values (its two spatial axes flattened) have the slice minimum subtracted,
then are divided by the maximum of the subtracted values. -/
def normSlice (data : List ℚ) : List ℚ :=
  let d1 := data.map (fun x => x - minL data)
  d1.map (fun x => x / maxL d1)

/-- Embedding of `engine/utils.py::normalize_data`: `np.min`/`np.max` over
`axis=(-2, -1)` with `keepdims=True` act independently on each leading-axis
slice, so the array is a list of (flattened) spatial slices. -/
def normalize_data (data : List (List ℚ)) : List (List ℚ) :=
  data.map normSlice

/-- Denormalization core of `engine/use.py::get_parameters`: the
`nlse_settings` 8-tuple is destructured as
`(n2, in_power, alpha, isat, waist, nl_length, delta_z, length)`, and the
three network outputs (abstracted here as parameters, since the CNN forward
pass is external) are scaled by `n2.min()`, `isat.max()`, `alpha.max()`
respectively. -/
def get_parameters (nlse_settings : List ℚ × ℚ × List ℚ × List ℚ × ℚ × ℚ × ℚ × ℚ)
    (outputs_n2 outputs_isat outputs_alpha : ℚ) : ℚ × ℚ × ℚ :=
  let (n2, _in_power, alpha, isat, _waist, _nl_length, _delta_z, _length) := nlse_settings
  let min_n2 := minL n2
  let max_isat := maxL isat
  let max_alpha := maxL alpha
  let computed_n2 := outputs_n2 * min_n2
  let computed_isat := outputs_isat * max_isat
  let computed_alpha := outputs_alpha * max_alpha
  (computed_n2, computed_isat, computed_alpha)

/-- Embedding of `engine/utils.py::experiment_noise`: the sampled Poisson
array `poisson_draw` and Gaussian array `normal_draw` are parameters (the
random draws); the complex field is an (index → re × im) map.  The Poisson
draw is scaled by `poisson_noise_lam * 0.75`, the total noise is added to
the real part only, and the imaginary part is passed through. -/
def experiment_noise {ι : Type} (beam : ι → ℚ × ℚ)
    (poisson_draw normal_draw : ι → ℚ) (poisson_noise_lam : ℚ) : ι → ℚ × ℚ :=
  fun i =>
    let poisson_noise := poisson_draw i * poisson_noise_lam * 0.75
    let total_noise := normal_draw i + poisson_noise
    ((beam i).1 + total_noise, (beam i).2)

/-- `np.abs` on ℚ, with an explicit `if` so that it evaluates in the kernel. -/
def rabs (x : ℚ) : ℚ := if x < 0 then -x else x

/-- `np.min` of a whole 2D array. -/
def minLL (E : List (List ℚ)) : ℚ := minL E.flatten

/-- `np.max` of a whole 2D array. -/
def maxLL (E : List (List ℚ)) : ℚ := maxL E.flatten

/-- Embedding of `engine/utils.py::general_extrema` on a 2D array: if the
center pixel `E[h//2, w//2]` exceeds the corner `E[0, 0]`, the global max is
subtracted; otherwise, if the center is negative, the global min is
subtracted; finally the elementwise absolute value is taken. -/
def general_extrema (E : List (List ℚ)) : List (List ℚ) :=
  let center := (E.getD (E.length / 2) []).getD ((E.headD []).length / 2) 0
  let corner := (E.getD 0 []).getD 0 0
  let E1 :=
    if corner < center then E.map (List.map (fun x => x - maxLL E))
    else if center < 0 then E.map (List.map (fun x => x - minLL E))
    else E
  E1.map (List.map rabs)

/-- Numpy broadcasting-assignment compatibility for a 2D source written
into a 2D destination slice: each source dimension must equal the
destination dimension or be 1. -/
def np_broadcast_into (src dst : ℕ × ℕ) : Bool :=
  (src.1 == dst.1 || src.1 == 1) && (src.2 == dst.2 || src.2 == 1)

/-- Shape-level embedding of the input assembly of
`engine/use.py::get_parameters`: `E = np.zeros((1, 4, 256, 256))` is
allocated with a hard-coded shape, then the four channels
(density, HOG density, phase, HOG phase), each of shape
`(resolution_training, resolution_training)`, are assigned into the
`(256, 256)` slices `E[0, c, :, :]`; an incompatible assignment raises, so
the result is `none` unless all four assignments broadcast. -/
def get_parameters_input (resolution_training : ℕ) : Option (ℕ × ℕ × ℕ × ℕ) :=
  let Eshape : ℕ × ℕ × ℕ × ℕ := (1, 4, 256, 256)
  let src : ℕ × ℕ := (resolution_training, resolution_training)
  if np_broadcast_into src (256, 256) && np_broadcast_into src (256, 256) &&
     np_broadcast_into src (256, 256) && np_broadcast_into src (256, 256)
  then some Eshape else none

/-- Embedding of `engine/utils.py::line_noise`: the image is a pixel map
`(row Y, column X) ↦ value` with `height` rows and `width` columns (from
`np.meshgrid`, `X` is the column and `Y` the row coordinate); the angle is
given in degrees and converted by `np.radians`; the sinusoid's spatial
frequency is `num_lines * 2π / diagonal`. -/
noncomputable def line_noise (image : ℕ → ℕ → ℝ) (height width : ℕ)
    (num_lines : ℕ) (amplitude angle : ℝ) : ℕ → ℕ → ℝ :=
  let angle_rad := angle * Real.pi / 180
  let diagonal_length := Real.sqrt ((width : ℝ) ^ 2 + (height : ℝ) ^ 2)
  let wave_frequency := ((num_lines : ℝ) * 2 * Real.pi) / diagonal_length
  fun Y X =>
    let X_rotated := (X : ℝ) * Real.cos angle_rad + (Y : ℝ) * Real.sin angle_rad
    image Y X + amplitude * Real.sin (X_rotated * wave_frequency)

theorem gather_isSome_iff {α : Type} (xs : List α) (idx : List ℕ) :
    (gather xs idx).isSome ↔ ∀ i ∈ idx, i < xs.length := by
  induction idx with
  | nil => simp [gather]
  | cons i is ih =>
    rcases h1 : xs[i]? with _ | a
    · have : ¬ i < xs.length := by
        intro hlt
        exact absurd h1 (by simp [List.getElem?_eq_getElem hlt])
      simp [gather, h1, this]
    · have hi : i < xs.length := by
        by_contra hge
        rw [List.getElem?_eq_none (by omega)] at h1
        exact Option.noConfusion h1
      rcases h2 : gather xs is with _ | rest
      · have : ¬ (gather xs is).isSome := by simp [h2]
        rw [ih] at this
        push_neg at this
        obtain ⟨j, hj, hjlen⟩ := this
        simp only [gather, h1, h2, List.mem_cons]
        constructor
        · intro h; exact absurd h (by simp)
        · intro h; exact absurd (h j (Or.inr hj)) (by omega)
      · have hsome : (gather xs is).isSome := by simp [h2]
        rw [ih] at hsome
        simp only [gather, h1, h2, List.mem_cons]
        constructor
        · rintro - j (rfl | hj)
          · exact hi
          · exact hsome j hj
        · intro; simp

theorem gather_length {α : Type} (xs ys : List α) (idx : List ℕ)
    (h : gather xs idx = some ys) : ys.length = idx.length := by
  induction idx generalizing ys with
  | nil => simp [gather] at h; simp [← h]
  | cons i is ih =>
    rcases h1 : xs[i]? with _ | a <;> rcases h2 : gather xs is with _ | rest <;>
      simp [gather, h1, h2] at h
    subst h
    simp [ih rest h2]

theorem gather_getElem? {α : Type} (xs ys : List α) (idx : List ℕ)
    (h : gather xs idx = some ys) (j : ℕ) :
    ys[j]? = (idx[j]?).bind (fun i => xs[i]?) := by
  induction idx generalizing ys j with
  | nil => simp [gather] at h; subst h; simp
  | cons i is ih =>
    rcases h1 : xs[i]? with _ | a <;> rcases h2 : gather xs is with _ | rest <;>
      simp [gather, h1, h2] at h
    subst h
    match j with
    | 0 => simp [h1]
    | j + 1 => simpa using ih rest h2 j

theorem np_repeat_length {α : Type} (l : List α) (k : ℕ) :
    (np_repeat l k).length = l.length * k := by
  induction l with
  | nil => simp [np_repeat]
  | cons x t ih =>
    simp only [np_repeat, List.flatMap_cons, List.length_append,
      List.length_replicate, List.length_cons]
    rw [show (t.flatMap fun x => List.replicate k x) = np_repeat t k from rfl, ih]
    ring

theorem np_repeat_getElem? {α : Type} (l : List α) (k i : ℕ)
    (hk : 0 < k) (hi : i < l.length * k) :
    (np_repeat l k)[i]? = l[i / k]? := by
  induction l generalizing i with
  | nil => simp at hi
  | cons x t ih =>
    simp only [np_repeat, List.flatMap_cons] at *
    rcases Nat.lt_or_ge i k with h | h
    · rw [List.getElem?_append_left (by simpa using h), Nat.div_eq_of_lt h]
      simp [List.getElem?_replicate, h]
    · rw [List.getElem?_append_right (by simpa using h)]
      have hi' : i - k < t.length * k := by
        simp only [List.length_cons, Nat.succ_mul] at hi
        omega
      rw [List.length_replicate, ih (i - k) hi', Nat.div_eq_sub_div hk h]
      simp

theorem gather_eq_none_iff {α : Type} (xs : List α) (idx : List ℕ) :
    gather xs idx = none ↔ ∃ i ∈ idx, xs.length ≤ i := by
  rw [← Option.not_isSome_iff_eq_none, gather_isSome_iff]
  push_neg
  simp

/-- C1: with `indices` an arbitrary permutation of `0..N-1` (the shuffled
`np.arange`), `data_augmentation` succeeds, the output dataset and the three
output label arrays all have length `N * 16`, the `count_*` fields are
unchanged, and a single permutation `p` (shared by the dataset and all three
label arrays) satisfies `output[i] = input[p[i / 16]]` for every output
index `i < N * 16`. -/
theorem data_augmentation_spec {S L : Type} (indices : List ℕ) (E : List S)
    (cn ci ca : ℕ) (n2 isat alpha : List L)
    (hperm : indices.Perm (List.range E.length))
    (hn2 : n2.length = E.length) (hisat : isat.length = E.length)
    (halpha : alpha.length = E.length) :
    ∃ E' n2' isat' alpha',
      data_augmentation indices E (cn, n2, ci, isat, ca, alpha)
        = some (E', (cn, n2', ci, isat', ca, alpha')) ∧
      E'.length = E.length * 16 ∧ n2'.length = E.length * 16 ∧
      isat'.length = E.length * 16 ∧ alpha'.length = E.length * 16 ∧
      ∃ p : List ℕ, p.Perm (List.range E.length) ∧
        ∀ i, i < E.length * 16 →
          E'[i]? = (p[i / 16]?).bind (fun j => E[j]?) ∧
          n2'[i]? = (p[i / 16]?).bind (fun j => n2[j]?) ∧
          isat'[i]? = (p[i / 16]?).bind (fun j => isat[j]?) ∧
          alpha'[i]? = (p[i / 16]?).bind (fun j => alpha[j]?) := by
  have hmem : ∀ i ∈ indices, i < E.length := fun i hi =>
    List.mem_range.mp (hperm.subset hi)
  have hilen : indices.length = E.length := by
    rw [hperm.length_eq, List.length_range]
  obtain ⟨n2s, hn2s⟩ := Option.isSome_iff_exists.mp
    ((gather_isSome_iff n2 indices).mpr (fun i hi => hn2 ▸ hmem i hi))
  obtain ⟨isats, hisats⟩ := Option.isSome_iff_exists.mp
    ((gather_isSome_iff isat indices).mpr (fun i hi => hisat ▸ hmem i hi))
  obtain ⟨alphas, halphas⟩ := Option.isSome_iff_exists.mp
    ((gather_isSome_iff alpha indices).mpr (fun i hi => halpha ▸ hmem i hi))
  obtain ⟨Es, hEs⟩ := Option.isSome_iff_exists.mp
    ((gather_isSome_iff E indices).mpr hmem)
  have hn2len : n2s.length = E.length := by rw [gather_length n2 n2s indices hn2s, hilen]
  have hisatlen : isats.length = E.length := by rw [gather_length isat isats indices hisats, hilen]
  have halphalen : alphas.length = E.length := by rw [gather_length alpha alphas indices halphas, hilen]
  have hElen : Es.length = E.length := by rw [gather_length E Es indices hEs, hilen]
  refine ⟨np_repeat Es 16, np_repeat n2s 16, np_repeat isats 16, np_repeat alphas 16, ?_,
    ?_, ?_, ?_, ?_, indices, hperm, ?_⟩
  · simp only [data_augmentation, hn2s, hisats, halphas, hEs]
  · rw [np_repeat_length, hElen]
  · rw [np_repeat_length, hn2len]
  · rw [np_repeat_length, hisatlen]
  · rw [np_repeat_length, halphalen]
  · intro i hi
    refine ⟨?_, ?_, ?_, ?_⟩
    · rw [np_repeat_getElem? Es 16 i (by norm_num) (by rw [hElen]; exact hi)]
      exact gather_getElem? E Es indices hEs (i / 16)
    · rw [np_repeat_getElem? n2s 16 i (by norm_num) (by rw [hn2len]; exact hi)]
      exact gather_getElem? n2 n2s indices hn2s (i / 16)
    · rw [np_repeat_getElem? isats 16 i (by norm_num) (by rw [hisatlen]; exact hi)]
      exact gather_getElem? isat isats indices hisats (i / 16)
    · rw [np_repeat_getElem? alphas 16 i (by norm_num) (by rw [halphalen]; exact hi)]
      exact gather_getElem? alpha alphas indices halphas (i / 16)

/-- Witness for C1 at a concrete input: dataset `[10, 20]`, labels
`[3, 4] / [5, 6] / [7, 8]`, shuffled indices `[1, 0]`. -/
theorem data_augmentation_spec_witness :
    ([1, 0].Perm (List.range ([10, 20] : List ℕ).length)) ∧
    (([3, 4] : List ℕ).length = ([10, 20] : List ℕ).length) ∧
    (∃ E' n2' isat' alpha',
      data_augmentation [1, 0] ([10, 20] : List ℕ) (1, ([3, 4] : List ℕ), 1, [5, 6], 1, [7, 8])
        = some (E', (1, n2', 1, isat', 1, alpha')) ∧
      E'.length = ([10, 20] : List ℕ).length * 16 ∧
      n2'.length = ([10, 20] : List ℕ).length * 16 ∧
      isat'.length = ([10, 20] : List ℕ).length * 16 ∧
      alpha'.length = ([10, 20] : List ℕ).length * 16 ∧
      ∃ p : List ℕ, p.Perm (List.range ([10, 20] : List ℕ).length) ∧
        ∀ i, i < ([10, 20] : List ℕ).length * 16 →
          E'[i]? = (p[i / 16]?).bind (fun j => ([10, 20] : List ℕ)[j]?) ∧
          n2'[i]? = (p[i / 16]?).bind (fun j => ([3, 4] : List ℕ)[j]?) ∧
          isat'[i]? = (p[i / 16]?).bind (fun j => ([5, 6] : List ℕ)[j]?) ∧
          alpha'[i]? = (p[i / 16]?).bind (fun j => ([7, 8] : List ℕ)[j]?)) :=
  ⟨by decide, rfl,
   data_augmentation_spec [1, 0] [10, 20] 1 1 1 [3, 4] [5, 6] [7, 8] (by decide) rfl rfl rfl⟩

/-- C8 counterexample: label arrays not all of the dataset's length need not
make `data_augmentation` fail.  Here `n2_labels` has length 1 while the
dataset and the other label arrays have length 2: the shuffled index range is
built from `len(n2_labels)` alone, so every access stays in bounds and the
call succeeds (silently truncating), contradicting the claimed
out-of-bounds failure. -/
theorem data_augmentation_mismatch_counterexample :
    ([0].Perm (List.range ([5] : List ℕ).length)) ∧
    ([5] : List ℕ).length ≠ ([0, 1] : List ℕ).length ∧
    (data_augmentation [0] ([0, 1] : List ℕ)
      (1, ([5] : List ℕ), 1, ([6, 7] : List ℕ), 1, [8, 9])).isSome = true := by
  decide

/-- C8 amended: `data_augmentation` fails (with an out-of-bounds indexing
error) exactly when the `n2` label array is strictly longer than the `isat`
label array, the `alpha` label array, or the dataset's leading axis; when
`n2_labels` is no longer than each of the others, the call succeeds even if
lengths disagree. -/
theorem data_augmentation_none_iff {S L : Type} (indices : List ℕ) (E : List S)
    (cn ci ca : ℕ) (n2 isat alpha : List L)
    (hperm : indices.Perm (List.range n2.length)) :
    data_augmentation indices E (cn, n2, ci, isat, ca, alpha) = none ↔
      isat.length < n2.length ∨ alpha.length < n2.length ∨ E.length < n2.length := by
  have hmem : ∀ i, i ∈ indices ↔ i < n2.length := fun i => by
    rw [hperm.mem_iff, List.mem_range]
  have hg : ∀ {β : Type} (xs : List β),
      gather xs indices = none ↔ xs.length < n2.length := by
    intro β xs
    rw [gather_eq_none_iff]
    constructor
    · rintro ⟨i, hi, hle⟩
      have := (hmem i).mp hi
      omega
    · intro hlt
      exact ⟨n2.length - 1, (hmem _).mpr (by omega), by omega⟩
  have hn2some : gather n2 indices ≠ none := by
    intro h
    have := (hg n2).mp h
    omega
  obtain ⟨n2s, h1⟩ := Option.ne_none_iff_exists'.mp hn2some
  rcases h2 : gather isat indices with _ | isats
  · simp only [data_augmentation, h1, h2]
    simp [(hg isat).mp h2]
  · rcases h3 : gather alpha indices with _ | alphas
    · simp only [data_augmentation, h1, h2, h3]
      simp [(hg alpha).mp h3]
    · rcases h4 : gather E indices with _ | Es
      · simp only [data_augmentation, h1, h2, h3, h4]
        simp [(hg E).mp h4]
      · simp only [data_augmentation, h1, h2, h3, h4]
        constructor
        · intro h
          exact absurd h (by simp)
        · rintro (hlt | hlt | hlt)
          · exact absurd ((hg isat).mpr hlt) (by simp [h2])
          · exact absurd ((hg alpha).mpr hlt) (by simp [h3])
          · exact absurd ((hg E).mpr hlt) (by simp [h4])

/-- Witness for the amended C8: `n2_labels` of length 1 against an empty
`isat` label array makes the call fail. -/
theorem data_augmentation_none_iff_witness :
    ([0].Perm (List.range ([5] : List ℕ).length)) ∧
    (data_augmentation [0] ([7] : List ℕ) (1, ([5] : List ℕ), 1, ([] : List ℕ), 1, [6]) = none ↔
      ([] : List ℕ).length < ([5] : List ℕ).length ∨
      ([6] : List ℕ).length < ([5] : List ℕ).length ∨
      ([7] : List ℕ).length < ([5] : List ℕ).length) :=
  ⟨by decide, data_augmentation_none_iff [0] [7] 1 1 1 [5] [] [6] (by decide)⟩

theorem take_drop_reassemble {α : Type} (l : List α) (t v : ℕ) (h : t ≤ v) :
    l.take t ++ (l.take v).drop t ++ l.drop v = l := by
  have h1 : l.take t = (l.take v).take t := by
    rw [List.take_take, min_eq_left h]
  rw [h1, List.append_assoc]
  rw [show (l.take v).take t ++ ((l.take v).drop t ++ l.drop v)
      = ((l.take v).take t ++ (l.take v).drop t) ++ l.drop v from by
    rw [List.append_assoc]]
  rw [List.take_append_drop, List.take_append_drop]

/-- C2: for ratios `r1 + r2 + r3 = 1` (each nonnegative) and label arrays of
the dataset's length `N`, `data_split` returns the contiguous order-preserving
slices `[0, t)`, `[t, v)`, `[v, N)` of every input array, with
`t = ⌊N * r1⌋` and `v = ⌊N * (r1 + r2)⌋`; the three part sizes sum to `N`
and concatenating the parts in order reconstructs each input array. -/
theorem data_split_spec {S L : Type} (E : List S) (n2 isat alpha : List L)
    (r1 r2 r3 : ℚ) (h1 : 0 ≤ r1) (h2 : 0 ≤ r2) (h3 : 0 ≤ r3)
    (hsum : r1 + r2 + r3 = 1)
    (hn : n2.length = E.length) (hi : isat.length = E.length)
    (ha : alpha.length = E.length) :
    ∃ t v : ℕ,
      (t : ℤ) = ⌊(E.length : ℚ) * r1⌋ ∧
      (v : ℤ) = ⌊(E.length : ℚ) * (r1 + r2)⌋ ∧
      t ≤ v ∧ v ≤ E.length ∧
      data_split E n2 isat alpha r1 r2 r3 =
        some ((E.take t, n2.take t, isat.take t, alpha.take t),
              ((E.take v).drop t, (n2.take v).drop t,
               (isat.take v).drop t, (alpha.take v).drop t),
              (E.drop v, n2.drop v, isat.drop v, alpha.drop v)) ∧
      (E.take t).length + ((E.take v).drop t).length + (E.drop v).length = E.length ∧
      E.take t ++ (E.take v).drop t ++ E.drop v = E ∧
      n2.take t ++ (n2.take v).drop t ++ n2.drop v = n2 ∧
      isat.take t ++ (isat.take v).drop t ++ isat.drop v = isat ∧
      alpha.take t ++ (alpha.take v).drop t ++ alpha.drop v = alpha := by
  set N := E.length with hN
  have hq1 : (0 : ℚ) ≤ (N : ℚ) * r1 := by positivity
  have hq2 : (0 : ℚ) ≤ (N : ℚ) * (r1 + r2) := by positivity
  have hpy1 : pyInt ((N : ℚ) * r1) = ⌊(N : ℚ) * r1⌋ := by
    rw [pyInt, if_neg (not_lt.mpr hq1)]
  have hpy2 : pyInt ((N : ℚ) * (r1 + r2)) = ⌊(N : ℚ) * (r1 + r2)⌋ := by
    rw [pyInt, if_neg (not_lt.mpr hq2)]
  have hf1 : (0 : ℤ) ≤ ⌊(N : ℚ) * r1⌋ := Int.floor_nonneg.mpr hq1
  have hf2 : (0 : ℤ) ≤ ⌊(N : ℚ) * (r1 + r2)⌋ := Int.floor_nonneg.mpr hq2
  have hle12 : ⌊(N : ℚ) * r1⌋ ≤ ⌊(N : ℚ) * (r1 + r2)⌋ := by
    apply Int.floor_le_floor
    have : r1 ≤ r1 + r2 := by linarith
    exact mul_le_mul_of_nonneg_left this (by positivity)
  have hle2N : ⌊(N : ℚ) * (r1 + r2)⌋ ≤ (N : ℤ) := by
    have hr12 : r1 + r2 ≤ 1 := by linarith
    have : (N : ℚ) * (r1 + r2) ≤ (N : ℚ) := by
      calc (N : ℚ) * (r1 + r2) ≤ (N : ℚ) * 1 :=
            mul_le_mul_of_nonneg_left hr12 (by positivity)
        _ = (N : ℚ) := mul_one _
    calc ⌊(N : ℚ) * (r1 + r2)⌋ ≤ ⌊(N : ℚ)⌋ := Int.floor_le_floor this
      _ = (N : ℤ) := Int.floor_natCast N
  refine ⟨(pyInt ((N : ℚ) * r1)).toNat, (pyInt ((N : ℚ) * (r1 + r2))).toNat,
    ?_, ?_, ?_, ?_, ?_, ?_, ?_, ?_, ?_, ?_⟩
  · rw [hpy1, Int.toNat_of_nonneg hf1]
  · rw [hpy2, Int.toNat_of_nonneg hf2]
  · rw [hpy1, hpy2]
    exact Int.toNat_le_toNat hle12
  · rw [hpy2]
    calc ⌊(N : ℚ) * (r1 + r2)⌋.toNat ≤ ((N : ℤ)).toNat := Int.toNat_le_toNat hle2N
      _ = N := Int.toNat_natCast N
  · rw [data_split, if_pos hsum]
  · set t := (pyInt ((N : ℚ) * r1)).toNat
    set v := (pyInt ((N : ℚ) * (r1 + r2))).toNat
    have htv : t ≤ v := by
      rw [show t = (⌊(N : ℚ) * r1⌋).toNat from by rw [← hpy1],
          show v = (⌊(N : ℚ) * (r1 + r2)⌋).toNat from by rw [← hpy2]]
      exact Int.toNat_le_toNat hle12
    have hvN : v ≤ N := by
      rw [show v = (⌊(N : ℚ) * (r1 + r2)⌋).toNat from by rw [← hpy2]]
      calc ⌊(N : ℚ) * (r1 + r2)⌋.toNat ≤ ((N : ℤ)).toNat := Int.toNat_le_toNat hle2N
        _ = N := Int.toNat_natCast N
    simp only [List.length_take, List.length_drop, List.length_take]
    omega
  · exact take_drop_reassemble E _ _ (by
      rw [hpy1, hpy2]
      exact Int.toNat_le_toNat hle12)
  · exact take_drop_reassemble n2 _ _ (by
      rw [hpy1, hpy2]
      exact Int.toNat_le_toNat hle12)
  · exact take_drop_reassemble isat _ _ (by
      rw [hpy1, hpy2]
      exact Int.toNat_le_toNat hle12)
  · exact take_drop_reassemble alpha _ _ (by
      rw [hpy1, hpy2]
      exact Int.toNat_le_toNat hle12)

/-- Witness for C2 at a concrete input: ten samples split with ratios
`(4/5, 1/10, 1/10)`. -/
theorem data_split_spec_witness :
    (0 ≤ (4 / 5 : ℚ)) ∧ (0 ≤ (1 / 10 : ℚ)) ∧ (0 ≤ (1 / 10 : ℚ)) ∧
    ((4 / 5 : ℚ) + 1 / 10 + 1 / 10 = 1) ∧
    (∃ t v : ℕ,
      (t : ℤ) = ⌊(([0, 1, 2, 3, 4, 5, 6, 7, 8, 9] : List ℕ).length : ℚ) * (4 / 5)⌋ ∧
      (v : ℤ) = ⌊(([0, 1, 2, 3, 4, 5, 6, 7, 8, 9] : List ℕ).length : ℚ) * (4 / 5 + 1 / 10)⌋ ∧
      t ≤ v ∧ v ≤ ([0, 1, 2, 3, 4, 5, 6, 7, 8, 9] : List ℕ).length ∧
      data_split [0, 1, 2, 3, 4, 5, 6, 7, 8, 9] ([0, 1, 2, 3, 4, 5, 6, 7, 8, 9] : List ℕ)
          [0, 1, 2, 3, 4, 5, 6, 7, 8, 9] [0, 1, 2, 3, 4, 5, 6, 7, 8, 9]
          (4 / 5) (1 / 10) (1 / 10) =
        some ((([0, 1, 2, 3, 4, 5, 6, 7, 8, 9] : List ℕ).take t,
               ([0, 1, 2, 3, 4, 5, 6, 7, 8, 9] : List ℕ).take t,
               ([0, 1, 2, 3, 4, 5, 6, 7, 8, 9] : List ℕ).take t,
               ([0, 1, 2, 3, 4, 5, 6, 7, 8, 9] : List ℕ).take t),
              ((([0, 1, 2, 3, 4, 5, 6, 7, 8, 9] : List ℕ).take v).drop t,
               (([0, 1, 2, 3, 4, 5, 6, 7, 8, 9] : List ℕ).take v).drop t,
               (([0, 1, 2, 3, 4, 5, 6, 7, 8, 9] : List ℕ).take v).drop t,
               (([0, 1, 2, 3, 4, 5, 6, 7, 8, 9] : List ℕ).take v).drop t),
              (([0, 1, 2, 3, 4, 5, 6, 7, 8, 9] : List ℕ).drop v,
               ([0, 1, 2, 3, 4, 5, 6, 7, 8, 9] : List ℕ).drop v,
               ([0, 1, 2, 3, 4, 5, 6, 7, 8, 9] : List ℕ).drop v,
               ([0, 1, 2, 3, 4, 5, 6, 7, 8, 9] : List ℕ).drop v)) ∧
      (([0, 1, 2, 3, 4, 5, 6, 7, 8, 9] : List ℕ).take t).length +
        ((([0, 1, 2, 3, 4, 5, 6, 7, 8, 9] : List ℕ).take v).drop t).length +
        (([0, 1, 2, 3, 4, 5, 6, 7, 8, 9] : List ℕ).drop v).length =
        ([0, 1, 2, 3, 4, 5, 6, 7, 8, 9] : List ℕ).length ∧
      ([0, 1, 2, 3, 4, 5, 6, 7, 8, 9] : List ℕ).take t ++
        (([0, 1, 2, 3, 4, 5, 6, 7, 8, 9] : List ℕ).take v).drop t ++
        ([0, 1, 2, 3, 4, 5, 6, 7, 8, 9] : List ℕ).drop v = [0, 1, 2, 3, 4, 5, 6, 7, 8, 9] ∧
      ([0, 1, 2, 3, 4, 5, 6, 7, 8, 9] : List ℕ).take t ++
        (([0, 1, 2, 3, 4, 5, 6, 7, 8, 9] : List ℕ).take v).drop t ++
        ([0, 1, 2, 3, 4, 5, 6, 7, 8, 9] : List ℕ).drop v = [0, 1, 2, 3, 4, 5, 6, 7, 8, 9] ∧
      ([0, 1, 2, 3, 4, 5, 6, 7, 8, 9] : List ℕ).take t ++
        (([0, 1, 2, 3, 4, 5, 6, 7, 8, 9] : List ℕ).take v).drop t ++
        ([0, 1, 2, 3, 4, 5, 6, 7, 8, 9] : List ℕ).drop v = [0, 1, 2, 3, 4, 5, 6, 7, 8, 9] ∧
      ([0, 1, 2, 3, 4, 5, 6, 7, 8, 9] : List ℕ).take t ++
        (([0, 1, 2, 3, 4, 5, 6, 7, 8, 9] : List ℕ).take v).drop t ++
        ([0, 1, 2, 3, 4, 5, 6, 7, 8, 9] : List ℕ).drop v = [0, 1, 2, 3, 4, 5, 6, 7, 8, 9]) :=
  ⟨by norm_num, by norm_num, by norm_num, by norm_num,
   data_split_spec [0, 1, 2, 3, 4, 5, 6, 7, 8, 9] [0, 1, 2, 3, 4, 5, 6, 7, 8, 9]
     [0, 1, 2, 3, 4, 5, 6, 7, 8, 9] [0, 1, 2, 3, 4, 5, 6, 7, 8, 9]
     (4 / 5) (1 / 10) (1 / 10)
     (by norm_num) (by norm_num) (by norm_num) (by norm_num) rfl rfl rfl⟩

/-- C3: the `data_split` ratio assertion passes exactly when the three
ratios sum to 1; in particular the malformed ratios `(0.8, 0.1, 0.2)` are
rejected. -/
theorem data_split_assertion {S L : Type} (E : List S) (n2 isat alpha : List L)
    (r1 r2 r3 : ℚ) :
    ((data_split E n2 isat alpha r1 r2 r3).isSome ↔ r1 + r2 + r3 = 1) ∧
    data_split E n2 isat alpha (0.8 : ℚ) (0.1 : ℚ) (0.2 : ℚ) = none := by
  constructor
  · rcases eq_or_ne (r1 + r2 + r3) 1 with h | h <;> simp [data_split, h]
  · rw [data_split, if_neg (by norm_num)]

theorem rmin_le_left (a b : ℚ) : rmin a b ≤ a := by
  rw [rmin]
  split <;> linarith

theorem le_rmax_left (a b : ℚ) : a ≤ rmax a b := by
  rw [rmax]
  split <;> linarith

theorem rmin_sub_sub (x y c : ℚ) : rmin (x - c) (y - c) = rmin x y - c := by
  simp only [rmin, sub_le_sub_iff_right]
  split <;> rfl

theorem rmax_sub_sub (x y c : ℚ) : rmax (x - c) (y - c) = rmax x y - c := by
  simp only [rmax, sub_le_sub_iff_right]
  split <;> rfl

theorem rmin_div_div (x y c : ℚ) (hc : 0 < c) :
    rmin (x / c) (y / c) = rmin x y / c := by
  simp only [rmin, div_le_div_iff_of_pos_right hc]
  split <;> rfl

theorem rmax_div_div (x y c : ℚ) (hc : 0 < c) :
    rmax (x / c) (y / c) = rmax x y / c := by
  simp only [rmax, div_le_div_iff_of_pos_right hc]
  split <;> rfl

theorem foldl_comm_map (g : ℚ → ℚ) (f : ℚ → ℚ → ℚ)
    (hfg : ∀ x y, f (g x) (g y) = g (f x y)) (l : List ℚ) (a : ℚ) :
    (l.map g).foldl f (g a) = g (l.foldl f a) := by
  induction l generalizing a with
  | nil => rfl
  | cons x t ih =>
    simp only [List.map_cons, List.foldl_cons]
    rw [hfg, ih]

theorem foldl_rmin_le (l : List ℚ) (a : ℚ) : l.foldl rmin a ≤ a := by
  induction l generalizing a with
  | nil => exact le_refl a
  | cons x t ih => exact le_trans (ih (rmin a x)) (rmin_le_left a x)

theorem le_foldl_rmax (l : List ℚ) (a : ℚ) : a ≤ l.foldl rmax a := by
  induction l generalizing a with
  | nil => exact le_refl a
  | cons x t ih => exact le_trans (le_rmax_left a x) (ih (rmax a x))

theorem minL_le_maxL (l : List ℚ) (h : l ≠ []) : minL l ≤ maxL l := by
  match l with
  | [] => exact absurd rfl h
  | a :: t => exact le_trans (foldl_rmin_le t a) (le_foldl_rmax t a)

theorem minL_map_sub (l : List ℚ) (c : ℚ) (h : l ≠ []) :
    minL (l.map (fun x => x - c)) = minL l - c := by
  match l with
  | [] => exact absurd rfl h
  | a :: t =>
    simp only [List.map_cons, minL]
    exact foldl_comm_map (fun x => x - c) rmin
      (fun x y => rmin_sub_sub x y c) t a

theorem maxL_map_sub (l : List ℚ) (c : ℚ) (h : l ≠ []) :
    maxL (l.map (fun x => x - c)) = maxL l - c := by
  match l with
  | [] => exact absurd rfl h
  | a :: t =>
    simp only [List.map_cons, maxL]
    exact foldl_comm_map (fun x => x - c) rmax
      (fun x y => rmax_sub_sub x y c) t a

theorem minL_map_div (l : List ℚ) (c : ℚ) (hc : 0 < c) (h : l ≠ []) :
    minL (l.map (fun x => x / c)) = minL l / c := by
  match l with
  | [] => exact absurd rfl h
  | a :: t =>
    simp only [List.map_cons, minL]
    exact foldl_comm_map (fun x => x / c) rmin
      (fun x y => rmin_div_div x y c hc) t a

theorem maxL_map_div (l : List ℚ) (c : ℚ) (hc : 0 < c) (h : l ≠ []) :
    maxL (l.map (fun x => x / c)) = maxL l / c := by
  match l with
  | [] => exact absurd rfl h
  | a :: t =>
    simp only [List.map_cons, maxL]
    exact foldl_comm_map (fun x => x / c) rmax
      (fun x y => rmax_div_div x y c hc) t a

theorem normSlice_idem (l : List ℚ) (hne : l ≠ [])
    (hR : maxL (l.map (fun x => x - minL l)) ≠ 0) :
    normSlice (normSlice l) = normSlice l := by
  have hmap : maxL (l.map (fun x => x - minL l)) = maxL l - minL l :=
    maxL_map_sub l (minL l) hne
  set m := minL l
  set R := maxL l - m with hRdef
  have hR' : R ≠ 0 := by rw [← hmap]; exact hR
  have hRpos : 0 < R := lt_of_le_of_ne (by
    have := minL_le_maxL l hne
    simp only [hRdef]
    linarith) (Ne.symm hR')
  have hsubne : l.map (fun x => x - m) ≠ [] := by
    simp [hne]
  have hns : normSlice l = (l.map (fun x => x - m)).map (fun x => x / R) := by
    rw [normSlice, hmap]
  have hnsne : normSlice l ≠ [] := by
    rw [hns]
    simp [hne]
  have hmin_ns : minL (normSlice l) = 0 := by
    rw [hns, minL_map_div _ R hRpos hsubne, minL_map_sub l m hne]
    simp
  have hmax_ns : maxL (normSlice l) = 1 := by
    rw [hns, maxL_map_div _ R hRpos hsubne, maxL_map_sub l m hne, ← hRdef,
      div_self hR']
  have hid : (normSlice l).map (fun x => x - minL (normSlice l)) = normSlice l := by
    rw [hmin_ns]
    simp
  rw [normSlice, hid, hmax_ns]
  simp

/-- C4: `normalize_data` is idempotent on any stack of nonempty spatial
slices whose per-slice maximum after per-slice minimum subtraction is
nonzero: normalizing a second time changes nothing. -/
theorem normalize_data_idempotent (data : List (List ℚ))
    (h : ∀ s ∈ data, s ≠ [] ∧ maxL (s.map (fun x => x - minL s)) ≠ 0) :
    normalize_data (normalize_data data) = normalize_data data := by
  rw [normalize_data, normalize_data, List.map_map]
  apply List.map_congr_left
  intro s hs
  exact normSlice_idem s (h s hs).1 (h s hs).2

/-- Witness for C4 at a concrete input: one slice `[0, 2]` (range 2). -/
theorem normalize_data_idempotent_witness :
    (∀ s ∈ ([[0, 2]] : List (List ℚ)),
      s ≠ [] ∧ maxL (s.map (fun x => x - minL s)) ≠ 0) ∧
    normalize_data (normalize_data [[0, 2]]) = normalize_data [[0, 2]] :=
  ⟨by
    intro s hs
    simp only [List.mem_singleton] at hs
    subst hs
    exact ⟨by simp, by norm_num [minL, maxL, rmin, rmax]⟩,
   normalize_data_idempotent [[0, 2]] (by
    intro s hs
    simp only [List.mem_singleton] at hs
    subst hs
    exact ⟨by simp, by norm_num [minL, maxL, rmin, rmax]⟩)⟩

/-- C5: `get_parameters` returns exactly
`(output_n2 * min(n2), output_isat * max(isat), output_alpha * max(alpha))`
— `n2` scaled by the training grid's minimum, `isat` and `alpha` each by
the grid's maximum, with `alpha` and `isat` read from their positions in
the `nlse_settings` tuple. -/
theorem get_parameters_spec (n2 alpha isat : List ℚ)
    (in_power waist nl_length delta_z len outputs_n2 outputs_isat outputs_alpha : ℚ) :
    get_parameters (n2, in_power, alpha, isat, waist, nl_length, delta_z, len)
        outputs_n2 outputs_isat outputs_alpha
      = (outputs_n2 * minL n2, outputs_isat * maxL isat, outputs_alpha * maxL alpha) :=
  rfl

/-- C7: elementwise, the real part of the noisy beam is
`re(beam) + P * lam * 0.75 + G` and the imaginary part is exactly
`im(beam)` — noise touches only the real part. -/
theorem experiment_noise_spec {ι : Type} (beam : ι → ℚ × ℚ)
    (poisson_draw normal_draw : ι → ℚ) (poisson_noise_lam : ℚ) (i : ι) :
    (experiment_noise beam poisson_draw normal_draw poisson_noise_lam i).1
      = (beam i).1 + poisson_draw i * poisson_noise_lam * 0.75 + normal_draw i ∧
    (experiment_noise beam poisson_draw normal_draw poisson_noise_lam i).2
      = (beam i).2 := by
  constructor
  · show (beam i).1 + (normal_draw i + poisson_draw i * poisson_noise_lam * 0.75) = _
    ring
  · rfl

/-- C9 counterexample: on `[[-1, -1], [-1, -1]]` the center equals the
corner exactly, yet a subtraction does occur before the absolute value: the
center is negative, so the second branch subtracts the global minimum and
the result is all zeros instead of the elementwise absolute value (all
ones). -/
theorem general_extrema_counterexample :
    ((([[-1, -1], [-1, -1]] : List (List ℚ)).getD
        (([[-1, -1], [-1, -1]] : List (List ℚ)).length / 2) []).getD
      ((([[-1, -1], [-1, -1]] : List (List ℚ)).headD []).length / 2) 0
      = (([[-1, -1], [-1, -1]] : List (List ℚ)).getD 0 []).getD 0 0) ∧
    general_extrema [[-1, -1], [-1, -1]]
      ≠ ([[-1, -1], [-1, -1]] : List (List ℚ)).map (List.map rabs) := by
  constructor
  · rfl
  · intro h
    have h0 : general_extrema [[-1, -1], [-1, -1]] = [[0, 0], [0, 0]] := by
      norm_num [general_extrema, minLL, maxLL, minL, maxL, rmin, rmax, rabs]
    have h1 : ([[-1, -1], [-1, -1]] : List (List ℚ)).map (List.map rabs)
        = [[1, 1], [1, 1]] := by
      norm_num [rabs]
    rw [h0, h1] at h
    simp at h

/-- C9 amended: when the center pixel equals the corner pixel exactly AND
the center is nonnegative, no subtraction occurs before the absolute value,
and `general_extrema E` is the elementwise absolute value of the unmodified
input.  (When the shared value is negative, the `center < 0` branch fires
and the global minimum is subtracted first.) -/
theorem general_extrema_center_eq_corner (E : List (List ℚ))
    (hc : (E.getD (E.length / 2) []).getD ((E.headD []).length / 2) 0
        = (E.getD 0 []).getD 0 0)
    (hnn : 0 ≤ (E.getD (E.length / 2) []).getD ((E.headD []).length / 2) 0) :
    general_extrema E = E.map (List.map rabs) := by
  rw [general_extrema]
  rw [if_neg (by
    intro hlt
    rw [hc] at hlt
    exact lt_irrefl _ hlt)]
  rw [if_neg (not_lt.mpr (hc ▸ hnn))]

/-- Witness for the amended C9 at a concrete input: all-ones array, center
equals corner and is nonnegative. -/
theorem general_extrema_center_eq_corner_witness :
    ((([[1, 1], [1, 1]] : List (List ℚ)).getD
        (([[1, 1], [1, 1]] : List (List ℚ)).length / 2) []).getD
      ((([[1, 1], [1, 1]] : List (List ℚ)).headD []).length / 2) 0
      = (([[1, 1], [1, 1]] : List (List ℚ)).getD 0 []).getD 0 0) ∧
    (0 ≤ (([[1, 1], [1, 1]] : List (List ℚ)).getD
        (([[1, 1], [1, 1]] : List (List ℚ)).length / 2) []).getD
      ((([[1, 1], [1, 1]] : List (List ℚ)).headD []).length / 2) 0) ∧
    general_extrema [[1, 1], [1, 1]]
      = ([[1, 1], [1, 1]] : List (List ℚ)).map (List.map rabs) :=
  ⟨rfl, by norm_num,
   general_extrema_center_eq_corner [[1, 1], [1, 1]] rfl (by norm_num)⟩

/-- C10 counterexample: `resolution_training = 1` differs from 256, yet the
channel assignments do not fail — a `(1, 1)` source broadcasts into the
`(256, 256)` destination slice, so the assembly succeeds. -/
theorem get_parameters_input_counterexample :
    (1 : ℕ) ≠ 256 ∧ (get_parameters_input 1).isSome = true := by
  decide

/-- C10 amended: the network input tensor shape is the hard-coded
`(1, 4, 256, 256)` whenever assembly succeeds, independent of
`resolution_training`; the four channel assignments succeed exactly when
`resolution_training` is 256 (exact shape match) or the degenerate 1
(numpy broadcast), and fail with a shape mismatch for every other value. -/
theorem get_parameters_input_spec (resolution_training : ℕ) :
    get_parameters_input resolution_training
      = if resolution_training = 256 ∨ resolution_training = 1
        then some (1, 4, 256, 256) else none := by
  rcases eq_or_ne resolution_training 256 with rfl | h256
  · rfl
  · rcases eq_or_ne resolution_training 1 with rfl | h1
    · rfl
    · rw [if_neg (by

        rintro (h | h) <;> exact absurd h (by assumption))]
      rw [get_parameters_input]
      rw [if_neg (by
        simp [np_broadcast_into, h256, h1])]

/-- C6: `line_noise` adds, at every pixel `(X, Y)`, exactly
`amplitude * sin((X cos θ + Y sin θ) * 2π·num_lines / √(w² + h²))` with
`θ = angle·π/180`; moreover `wave_frequency * (diagonal / num_lines) = 2π`,
so the sinusoid has period `diagonal / num_lines` in the rotated coordinate
and exactly `num_lines` full periods span the image diagonal. -/
theorem line_noise_spec (image : ℕ → ℕ → ℝ) (height width num_lines : ℕ)
    (amplitude angle : ℝ) (hw : 0 < width) (hn : 0 < num_lines) :
    (∀ Y X : ℕ,
      line_noise image height width num_lines amplitude angle Y X
        = image Y X + amplitude * Real.sin
            (((X : ℝ) * Real.cos (angle * Real.pi / 180)
                + (Y : ℝ) * Real.sin (angle * Real.pi / 180))
              * (2 * Real.pi * (num_lines : ℝ)
                  / Real.sqrt ((width : ℝ) ^ 2 + (height : ℝ) ^ 2)))) ∧
    ((num_lines : ℝ) * 2 * Real.pi / Real.sqrt ((width : ℝ) ^ 2 + (height : ℝ) ^ 2))
        * (Real.sqrt ((width : ℝ) ^ 2 + (height : ℝ) ^ 2) / (num_lines : ℝ))
      = 2 * Real.pi ∧
    (∀ t : ℝ,
      Real.sin ((t + Real.sqrt ((width : ℝ) ^ 2 + (height : ℝ) ^ 2) / (num_lines : ℝ))
          * ((num_lines : ℝ) * 2 * Real.pi
              / Real.sqrt ((width : ℝ) ^ 2 + (height : ℝ) ^ 2)))
        = Real.sin (t * ((num_lines : ℝ) * 2 * Real.pi
              / Real.sqrt ((width : ℝ) ^ 2 + (height : ℝ) ^ 2)))) := by
  have hwpos : (0 : ℝ) < (width : ℝ) := by exact_mod_cast hw
  have hDpos : 0 < Real.sqrt ((width : ℝ) ^ 2 + (height : ℝ) ^ 2) := by
    apply Real.sqrt_pos.mpr
    have h1 : (0 : ℝ) < (width : ℝ) ^ 2 := by positivity
    have h2 : (0 : ℝ) ≤ (height : ℝ) ^ 2 := by positivity
    linarith
  have hD : Real.sqrt ((width : ℝ) ^ 2 + (height : ℝ) ^ 2) ≠ 0 := ne_of_gt hDpos
  have hnR : ((num_lines : ℝ)) ≠ 0 := by
    have : (0 : ℝ) < (num_lines : ℝ) := by exact_mod_cast hn
    exact ne_of_gt this
  have hper : (Real.sqrt ((width : ℝ) ^ 2 + (height : ℝ) ^ 2) / (num_lines : ℝ))
      * ((num_lines : ℝ) * 2 * Real.pi
          / Real.sqrt ((width : ℝ) ^ 2 + (height : ℝ) ^ 2)) = 2 * Real.pi := by
    field_simp
    ring
  refine ⟨?_, ?_, ?_⟩
  · intro Y X
    simp only [line_noise]
    have harg : ((X : ℝ) * Real.cos (angle * Real.pi / 180)
          + (Y : ℝ) * Real.sin (angle * Real.pi / 180))
          * ((num_lines : ℝ) * 2 * Real.pi
              / Real.sqrt ((width : ℝ) ^ 2 + (height : ℝ) ^ 2))
        = ((X : ℝ) * Real.cos (angle * Real.pi / 180)
          + (Y : ℝ) * Real.sin (angle * Real.pi / 180))
          * (2 * Real.pi * (num_lines : ℝ)
              / Real.sqrt ((width : ℝ) ^ 2 + (height : ℝ) ^ 2)) := by
      ring
    rw [harg]
  · field_simp
    ring
  · intro t
    rw [add_mul, hper, Real.sin_add_two_pi]

/-- Witness for C6 at a concrete input: the zero image of height 3 and
width 4, one line, unit amplitude, angle 0. -/
theorem line_noise_spec_witness :
    0 < 4 ∧ 0 < 1 ∧
    ((∀ Y X : ℕ,
      line_noise (fun _ _ => (0 : ℝ)) 3 4 1 1 0 Y X
        = (fun _ _ => (0 : ℝ)) Y X + 1 * Real.sin
            (((X : ℝ) * Real.cos (0 * Real.pi / 180)
                + (Y : ℝ) * Real.sin (0 * Real.pi / 180))
              * (2 * Real.pi * ((1 : ℕ) : ℝ)
                  / Real.sqrt (((4 : ℕ) : ℝ) ^ 2 + ((3 : ℕ) : ℝ) ^ 2)))) ∧
    (((1 : ℕ) : ℝ) * 2 * Real.pi / Real.sqrt (((4 : ℕ) : ℝ) ^ 2 + ((3 : ℕ) : ℝ) ^ 2))
        * (Real.sqrt (((4 : ℕ) : ℝ) ^ 2 + ((3 : ℕ) : ℝ) ^ 2) / ((1 : ℕ) : ℝ))
      = 2 * Real.pi ∧
    (∀ t : ℝ,
      Real.sin ((t + Real.sqrt (((4 : ℕ) : ℝ) ^ 2 + ((3 : ℕ) : ℝ) ^ 2) / ((1 : ℕ) : ℝ))
          * (((1 : ℕ) : ℝ) * 2 * Real.pi
              / Real.sqrt (((4 : ℕ) : ℝ) ^ 2 + ((3 : ℕ) : ℝ) ^ 2)))
        = Real.sin (t * (((1 : ℕ) : ℝ) * 2 * Real.pi
              / Real.sqrt (((4 : ℕ) : ℝ) ^ 2 + ((3 : ℕ) : ℝ) ^ 2))))) :=
  ⟨by decide, by decide,
   line_noise_spec (fun _ _ => (0 : ℝ)) 3 4 1 1 0 (by decide) (by decide)⟩

end NlseParameterNN
